import Mathlib

/-!
Verification development for the EDAM ontology matching system
(`enhanced_edam_matcher.py`, `edam_ontology_matcher.py`).

The Python source is shallowly embedded: pandas rows become `CSVRow`
records, dictionaries become last-write-wins association lookups,
Python floats (used only as confidence scores that are stored and
compared, never arithmetically combined) become `ℚ`, and the external
DSPy oracle becomes an explicit function from (chunk index, attempt
index) to an outcome, which models one outcome per physical call of a
nondeterministic external service.  All definitions are executable.
-/

namespace EDAM

/-! ## Chunker (`EnhancedEDAMMatchingSystem.match_package_to_ontology`, lines 332-353)

The chunking loop walks the formatted ontology entries, accounting
`len(entry) + 1` characters for each entry (the `+1` is the joining
newline), closing the current chunk when the next entry would overflow
the character budget and the current chunk is non-empty.  The budget is
an `ℤ` because in the source it is `MAX_ONTOLOGY_CHARS - len(description)`,
which can be negative for a long description. -/

/-- Character accounting of the loop: `entry_len = len(entry) + 1`. -/
def entryLen (e : String) : ℤ := (e.length : ℤ) + 1

/-- Sum of `entryLen` over a chunk; mirrors the `current_len` counter. -/
def sumLen : List String → ℤ
  | [] => 0
  | e :: t => entryLen e + sumLen t

/-- The chunking loop of `match_package_to_ontology` (lines 338-353).
`cur` is `current_chunk`, `curLen` is `current_len`.  When
`current_len + entry_len > chunk_char_budget and current_chunk`, the
current chunk is emitted and a fresh chunk is started with the entry;
otherwise the entry is appended.  At the end a non-empty `current_chunk`
is emitted. -/
def chunkLoop (budget : ℤ) : List String → List String → ℤ → List (List String)
  | [], cur, _ => if cur = [] then [] else [cur]
  | e :: rest, cur, curLen =>
    if curLen + entryLen e > budget ∧ cur ≠ [] then
      cur :: chunkLoop budget rest [e] (entryLen e)
    else
      chunkLoop budget rest (cur ++ [e]) (curLen + entryLen e)

/-- Entry point of the chunking step: `chunk_entries` built from the
formatted ontology entries and the character budget. -/
def chunkEntries (budget : ℤ) (entries : List String) : List (List String) :=
  chunkLoop budget entries [] 0

/-- The derived chunk budget (lines 303-332): `SAFE_TOKENS` is 25000,
raised to 29000 when synonyms are off; `CHARS_PER_TOKEN = 4`; the
description length is subtracted. -/
def chunkCharBudget (use_synonyms : Bool) (descriptionChars : ℕ) : ℤ :=
  (if use_synonyms then (25000 : ℤ) else 29000) * 4 - (descriptionChars : ℤ)

/-! ## Python string primitives

The Python string operations used by the source (`str.split(sep)`,
`str.split()`, `str.strip()`, `str.lower()`) are embedded structurally
over the character list of the string, so that every definition
evaluates by kernel reduction. -/

/-- Group a character list at every character satisfying `p`, keeping
empty groups, as Python `str.split(sep)` does:
`"a||b".split("|") == ["a", "", "b"]` and `"".split("|") == [""]`. -/
def splitCharsAt (p : Char → Bool) : List Char → List (List Char) :=
  List.foldr
    (fun c acc =>
      if p c then [] :: acc
      else
        match acc with
        | h :: t => (c :: h) :: t
        | [] => [[c]])
    [[]]

/-- Python `s.split(sep)` for a one-character separator. -/
def pySplitOn (sep : Char) (s : String) : List String :=
  (splitCharsAt (fun c => c = sep) s.data).map String.mk

/-- Python `s.strip()`: drop leading and trailing whitespace. -/
def pyStrip (s : String) : String :=
  String.mk
    (((s.data.dropWhile Char.isWhitespace).reverse.dropWhile
        Char.isWhitespace).reverse)

/-- Python `s.lower()`. -/
def pyLower (s : String) : String :=
  String.mk (s.data.map Char.toLower)

/-- Python `s.split()` with no argument: split on whitespace runs,
discarding empty pieces. -/
def pySplit (s : String) : List String :=
  ((splitCharsAt Char.isWhitespace s.data).map String.mk).filter
    (fun w => w ≠ "")

/-! ## Vocabulary store / validator (`EDAMValidator`, lines 45-164)

A pandas row of `EDAM.csv` is embedded as a `CSVRow`; a missing (NaN)
cell is `none`.  Python dictionaries built by iterating rows are
embedded as last-write-wins association lookups (`dictLast`), which is
exactly the semantics of repeated `d[k] = v` assignments. -/

/-- One row of the EDAM CSV as consumed by the matcher and validator. -/
structure CSVRow where
  classId : Option String
  preferredLabel : Option String
  definitions : Option String
  synonymsField : Option String
  obsolete : Bool
deriving DecidableEq

/-- Last-write-wins dictionary lookup over an ordered assignment list:
the value of the latest assignment to `k`, as in a Python dict filled
by successive `d[k] = v`. -/
def dictLast {α : Type} (assigns : List (String × α)) (k : String) : Option α :=
  assigns.foldl (fun acc p => if p.1 = k then some p.2 else acc) none

/-- The validator state: the raw CSV rows (the `EDAMValidator` does NOT
filter obsolete rows) and the `use_synonyms` flag. -/
structure EDAMValidator where
  rows : List CSVRow
  use_synonyms : Bool
deriving DecidableEq

namespace EDAMValidator

/-- `valid_ids = set(self.edam_df[\x27Class ID\x27].dropna())` (line 52):
membership of an id among the non-null `Class ID` cells of any row,
obsolete rows included. -/
def validate_id (v : EDAMValidator) (edam_id : String) : Bool :=
  v.rows.any (fun r => r.classId = some edam_id)

/-- Membership in `valid_labels` (line 53): non-null `Preferred Label`
cells of any row. -/
def validLabelsMem (v : EDAMValidator) (edam_label : String) : Bool :=
  v.rows.any (fun r => r.preferredLabel = some edam_label)

/-- The `(Class ID, Preferred Label)` assignments made by the indexing
loop (lines 63-68): one per row whose id and label are both non-null,
in row order. -/
def idLabelAssigns (rows : List CSVRow) : List (String × String) :=
  rows.filterMap (fun r =>
    match r.classId, r.preferredLabel with
    | some i, some l => some (i, l)
    | _, _ => none)

/-- `self.id_to_label.get(edam_id)` (line 67, last write wins). -/
def id_to_label (v : EDAMValidator) (edam_id : String) : Option String :=
  dictLast (idLabelAssigns v.rows) edam_id

/-- `self.label_to_id.get(edam_label)` (line 68, last write wins). -/
def label_to_id (v : EDAMValidator) (edam_label : String) : Option String :=
  dictLast ((idLabelAssigns v.rows).map (fun p => (p.2, p.1))) edam_label

/-- The `(synonym, label, id)` assignments of the synonym-indexing loop
(lines 69-76): only when `use_synonyms`, only for rows with non-null
id, label and synonyms; synonyms are pipe-separated, stripped, and
empty strings are skipped. -/
def synonymAssigns (v : EDAMValidator) : List (String × String × String) :=
  if v.use_synonyms then
    v.rows.foldl (fun acc r =>
      match r.classId, r.preferredLabel, r.synonymsField with
      | some cid, some lbl, some syns =>
        acc ++ (((pySplitOn '|' syns).map pyStrip).filter
          (fun s => s ≠ "")).map (fun s => (s, lbl, cid))
      | _, _, _ => acc) []
  else []

/-- `self.synonym_to_label.get(s)` (line 75). -/
def synonym_to_label (v : EDAMValidator) (s : String) : Option String :=
  dictLast ((synonymAssigns v).map (fun a => (a.1, a.2.1))) s

/-- `self.synonym_to_id.get(s)` (line 76). -/
def synonym_to_id (v : EDAMValidator) (s : String) : Option String :=
  dictLast ((synonymAssigns v).map (fun a => (a.1, a.2.2))) s

/-- `validate_label` (lines 104-108): preferred labels, plus the synonym
index when synonyms are on. -/
def validate_label (v : EDAMValidator) (edam_label : String) : Bool :=
  if v.use_synonyms then
    validLabelsMem v edam_label || (synonym_to_label v edam_label).isSome
  else
    validLabelsMem v edam_label

/-- `get_label_for_id` (lines 136-138). -/
def get_label_for_id (v : EDAMValidator) (edam_id : String) : Option String :=
  id_to_label v edam_id

/-- `get_id_for_label` (lines 140-142): preferred-label index only, no
synonym lookup. -/
def get_id_for_label (v : EDAMValidator) (edam_label : String) : Option String :=
  label_to_id v edam_label

/-- Rendering of an optional string inside a Python f-string: a missing
value prints as `None`. -/
def pyStr (o : Option String) : String :=
  o.getD "None"

/-- `validate_match` (lines 110-134): id exists, label exists, and the
pair is consistent either canonically or via the synonym index. -/
def validate_match (v : EDAMValidator) (edam_id edam_label : String) : Bool × String :=
  if ¬ validate_id v edam_id then
    (false, "EDAM ID \x27" ++ edam_id ++ "\x27 not found in CSV")
  else if ¬ validate_label v edam_label then
    (false, "EDAM label \x27" ++ edam_label ++ "\x27 not found in CSV")
  else
    let expected_label := id_to_label v edam_id
    if expected_label = some edam_label then
      (true, "Valid match")
    else if v.use_synonyms ∧ (synonym_to_label v edam_label).isSome then
      if synonym_to_id v edam_label = some edam_id then
        (true, "Valid match (via synonym)")
      else
        (false, "Label \x27" ++ edam_label ++ "\x27 is a synonym for \x27" ++
          pyStr (synonym_to_label v edam_label) ++ "\x27 (ID: " ++
          pyStr (synonym_to_id v edam_label) ++ "), not for \x27" ++
          pyStr expected_label ++ "\x27")
    else
      (false, "ID \x27" ++ edam_id ++ "\x27 should have label \x27" ++
        pyStr expected_label ++ "\x27, not \x27" ++ edam_label ++ "\x27")

/-- Truthiness of an optional Python string: `None` and `""` are falsy. -/
def pyTruthy (o : Option String) : Bool :=
  o.getD "" ≠ ""

/-- `fix_match` (lines 144-164).  Trust a valid id and overwrite the
label with its canonical label (if that label is truthy); else trust a
valid label and overwrite the id with its canonical id (if truthy);
else return the pair unchanged.  `if correct_label:` and
`if correct_id:` are Python truthiness tests, hence `pyTruthy`. -/
def fix_match (v : EDAMValidator) (edam_id edam_label : String) : String × String :=
  if validate_id v edam_id ∧ pyTruthy (get_label_for_id v edam_id) then
    (edam_id, (get_label_for_id v edam_id).getD "")
  else if validate_label v edam_label ∧ pyTruthy (get_id_for_label v edam_label) then
    ((get_id_for_label v edam_label).getD "", edam_label)
  else
    (edam_id, edam_label)

/-- `normalize_label_and_id` (lines 91-98): resolve a preferred label or
(when enabled) a synonym to its canonical `(label, id)` pair. -/
def normalize_label_and_id (v : EDAMValidator) (label_or_synonym : String) :
    Option String × Option String :=
  if (label_to_id v label_or_synonym).isSome then
    (some label_or_synonym, label_to_id v label_or_synonym)
  else if v.use_synonyms ∧ (synonym_to_label v label_or_synonym).isSome then
    (synonym_to_label v label_or_synonym, synonym_to_id v label_or_synonym)
  else
    (none, none)

end EDAMValidator

/-! ## Oracle client, per-chunk retry loop and aggregation
(`EnhancedEDAMMatchingSystem.match_package_to_ontology`, lines 292-431)

The DSPy matcher call is an external nondeterministic service.  It is
embedded as a function from the attempt number to the outcome of that
physical call: a structured result, a transient-capacity error
(`RateLimitError`/quota), or any other exception.  Confidence scores
are Python floats used only for storage and `>` comparison; they are
embedded as `ℚ`, with the literal `0.1` embedded as `1/10`. -/

/-- The structured result unit (`OntologyMatch` pydantic model,
lines 27-33). -/
structure OntologyMatch where
  edam_id : String
  edam_label : String
  confidence_score : ℚ
  reasoning : String
  validated : Bool
deriving DecidableEq

/-- Outcome of one physical oracle call (`self.matcher(...)`). -/
inductive OracleResult where
  | success (edam_id edam_label : String) (confidence_score : ℚ) (reasoning : String)
  | rateLimitError
  | otherError
deriving DecidableEq

/-- Whether a call outcome is a structured result. -/
def OracleResult.isSuccess : OracleResult → Bool
  | .success _ _ _ _ => true
  | _ => false

/-- Observable side effects of the per-chunk retry loop: oracle calls
(by 0-based attempt index) and backoff sleeps (`time.sleep`, seconds). -/
inductive OracleEvent where
  | call (attempt : ℕ)
  | sleep (seconds : ℕ)
deriving DecidableEq

/-- Post-processing of a successful oracle result (lines 372-399):
normalize a synonym label to its canonical pair (the Python guard
`if norm_label and norm_id` is a truthiness test on both strings),
validate, on failure attempt `fix_match` and re-validate, and build the
`OntologyMatch` with the final `validated` flag.  On a failed fix the
(normalized) id/label are kept with `validated = false`. -/
def processOracleSuccess (v : EDAMValidator) (edam_id edam_label : String)
    (confidence_score : ℚ) (reasoning : String) : OntologyMatch :=
  let norm := EDAMValidator.normalize_label_and_id v edam_label
  let p :=
    match norm with
    | (some l, some i) =>
      if l ≠ "" ∧ i ≠ "" then (i, l) else (edam_id, edam_label)
    | _ => (edam_id, edam_label)
  let is_valid := (EDAMValidator.validate_match v p.1 p.2).1
  let q :=
    if ¬ is_valid then
      let c := EDAMValidator.fix_match v p.1 p.2
      if (EDAMValidator.validate_match v c.1 c.2).1 then (c.1, c.2, true)
      else (p.1, p.2, false)
    else (p.1, p.2, true)
  ⟨q.1, q.2.1, confidence_score, reasoning, q.2.2⟩

/-- The per-chunk retry loop (lines 365-413), as a function of the fuel
(attempts still allowed, initially `max_retries = 3`) and the 0-based
attempt index.  On success the processed match is returned and the loop
breaks.  On a rate-limit/quota error with `attempt < max_retries - 1`
(equivalently: more fuel left after this attempt) the loop sleeps
`10 * (attempt + 1)` seconds and retries; otherwise it gives up.  Any
other error aborts the chunk immediately.  The event list records the
calls and sleeps in order. -/
def runChunkAttempts (v : EDAMValidator) (oracle : ℕ → OracleResult) :
    ℕ → ℕ → Option OntologyMatch × List OracleEvent
  | 0, _ => (none, [])
  | fuel + 1, attempt =>
    match oracle attempt with
    | .success i l c r => (some (processOracleSuccess v i l c r), [.call attempt])
    | .rateLimitError =>
      if 1 ≤ fuel then
        let rest := runChunkAttempts v oracle fuel (attempt + 1)
        (rest.1, .call attempt :: .sleep (10 * (attempt + 1)) :: rest.2)
      else
        (none, [.call attempt])
    | .otherError => (none, [.call attempt])

/-- The across-chunk loop (lines 360-413): for each chunk in order, run
the retry loop (`oracle idx` is the call-outcome schedule of chunk
`idx`); a chunk that produced no result is skipped; a produced match
replaces the best one exactly when its confidence is strictly higher
(`best_confidence` starts at `-1`). -/
def matchChunksLoop (v : EDAMValidator) (oracle : ℕ → ℕ → OracleResult) :
    List (List String) → ℕ → Option OntologyMatch → ℚ → Option OntologyMatch
  | [], _, best, _ => best
  | _chunk :: rest, idx, best, bestConf =>
    match (runChunkAttempts v (oracle idx) 3 0).1 with
    | none => matchChunksLoop v oracle rest (idx + 1) best bestConf
    | some m =>
      if m.confidence_score > bestConf then
        matchChunksLoop v oracle rest (idx + 1) (some m) m.confidence_score
      else
        matchChunksLoop v oracle rest (idx + 1) best bestConf

/-- One aggregation step (lines 400-404): a candidate replaces the best
exactly when `match.confidence_score > best_confidence`. -/
def aggStep (acc : Option OntologyMatch × ℚ) (m : OntologyMatch) :
    Option OntologyMatch × ℚ :=
  if m.confidence_score > acc.2 then (some m, m.confidence_score) else acc

/-- The best-match aggregation of lines 360-405 in isolation, applied to
the sequence of `OntologyMatch` values produced by successive chunks:
starting from no match and `best_confidence = -1` (line 361), fold the
aggregation step. -/
def aggregateMatches (ms : List OntologyMatch) : Option OntologyMatch × ℚ :=
  ms.foldl aggStep (none, -1)

/-- The matches produced by successive chunks (skipping failed chunks),
used to relate `matchChunksLoop` to `aggregateMatches`. -/
def chunkMatches (v : EDAMValidator) (oracle : ℕ → ℕ → OracleResult) :
    List (List String) → ℕ → List OntologyMatch
  | [], _ => []
  | _chunk :: rest, idx =>
    match (runChunkAttempts v (oracle idx) 3 0).1 with
    | none => chunkMatches v oracle rest (idx + 1)
    | some m => m :: chunkMatches v oracle rest (idx + 1)

/-- Line 236: the matching term table keeps only non-obsolete rows
(`self.edam_df[self.edam_df[\x27Obsolete\x27] == False]`). -/
def activeTerms (rows : List CSVRow) : List CSVRow :=
  rows.filter (fun r => r.obsolete = false)

/-- Formatted ontology entries (lines 311-320): label only in simple
mode, else `label: definitions` with a missing definition as the empty
string.  A missing label renders as `nan`, as a pandas NaN does inside
an f-string. -/
def ontologyEntries (simple_mode : Bool) (rows : List CSVRow) : List String :=
  if simple_mode then
    rows.map (fun r => r.preferredLabel.getD "nan")
  else
    rows.map (fun r =>
      r.preferredLabel.getD "nan" ++ ": " ++ r.definitions.getD "")

/-- The dictionary returned by `match_package_to_ontology`. -/
structure MatchResultDict where
  edam_id : String
  edam_label : String
  confidence_score : ℚ
  reasoning : String
  validated : Bool
deriving DecidableEq

/-- The fallback returned when no chunk produced any match
(lines 425-431): the fixed unclassified sentinel pair, confidence
`0.1`, unvalidated. -/
def fallbackMatchResult : MatchResultDict :=
  { edam_id := "http://edamontology.org/topic_3365"
    edam_label := "Data architecture, analysis and design"
    confidence_score := 1/10
    reasoning := "Error during matching: No valid match found in any chunk."
    validated := false }

/-- `match_package_to_ontology` (lines 292-431) over the raw CSV rows:
the validator indexes all rows, the term table is filtered to
non-obsolete rows, the entries are formatted, the chunk budget is
derived from the token ceiling minus the description length, the chunks
are processed in order, and the best match (or the fallback) is
returned as a dictionary.  The function is total: it never returns
null. -/
def matchPackageToOntology (rows : List CSVRow) (use_synonyms simple_mode : Bool)
    (oracle : ℕ → ℕ → OracleResult) (_package_name package_description : String) :
    MatchResultDict :=
  let v : EDAMValidator := ⟨rows, use_synonyms⟩
  let entries := ontologyEntries simple_mode (activeTerms rows)
  let budget := chunkCharBudget use_synonyms package_description.length
  let chunks := chunkEntries budget entries
  match matchChunksLoop v oracle chunks 0 none (-1) with
  | some best =>
    ⟨best.edam_id, best.edam_label, best.confidence_score, best.reasoning,
      best.validated⟩
  | none => fallbackMatchResult

/-! ## Relevance rankers

Two implementations exist: `EnhancedEDAMMatchingSystem.search_relevant_terms`
(`enhanced_edam_matcher.py`, lines 249-289) and
`EDAMMatchingSystem.search_relevant_terms`
(`edam_ontology_matcher.py`, lines 115-164). -/

/-- The case-folded word set of a string: `set(s.lower().split())`. -/
def wordSet (s : String) : Finset String :=
  (pySplit (pyLower s)).toFinset

/-- Python dict insertion `d[k] = v` over an insertion-ordered
association list: an existing key keeps its position and has its value
replaced; a fresh key is appended. -/
def dictInsert {α : Type} (l : List (String × α)) (k : String) (v : α) :
    List (String × α) :=
  if l.any (fun p => p.1 = k) then
    l.map (fun p => if p.1 = k then (k, v) else p)
  else
    l ++ [(k, v)]

/-- The maximal keyword overlap of the enhanced ranker (lines 262-281):
the overlap of the description words with the words of
`label definition synonyms`, improved by the overlap with each
individual pipe-separated synonym. -/
def entryMaxOverlap (descWords : Finset String) (r : CSVRow) : ℕ :=
  let label := r.preferredLabel.getD ""
  let definition := r.definitions.getD ""
  let synonyms := r.synonymsField.getD ""
  let termWords := wordSet (label ++ " " ++ definition ++ " " ++ synonyms)
  let allSynonyms :=
    if synonyms ≠ "" then
      ((pySplitOn '|' synonyms).map pyStrip).filter (fun s => s ≠ "")
    else []
  allSynonyms.foldl
    (fun m syn => max m (descWords ∩ wordSet syn).card)
    ((descWords ∩ termWords).card)

/-- Candidate formatting of the enhanced ranker (line 284):
`label: definition` when a definition exists, else the label. -/
def enhancedFormat (r : CSVRow) : String :=
  let label := r.preferredLabel.getD ""
  let definition := r.definitions.getD ""
  if definition ≠ "" then label ++ ": " ++ definition else label

/-- The dict key of a ranked row: the raw `Class ID` cell (a missing id
renders as `nan`). -/
def rowKey (r : CSVRow) : String :=
  r.classId.getD "nan"

/-- `EnhancedEDAMMatchingSystem.search_relevant_terms` (lines 249-289):
insert every row with positive maximal overlap into an
insertion-ordered dict, then return the FIRST `top_k` items.  No
sorting by score happens (the source comments
`not sorted here, but could be improved`). -/
def searchRelevantTerms (rows : List CSVRow) (description : String) (top_k : ℕ) :
    List (String × String) :=
  let descWords := wordSet description
  let relevant := rows.foldl
    (fun acc r =>
      if entryMaxOverlap descWords r > 0 then
        dictInsert acc (rowKey r) (enhancedFormat r)
      else acc)
    []
  relevant.take top_k

/-- Plain word overlap of the legacy ranker (lines 139-145): description
words against the words of `label definition synonyms`. -/
def legacyOverlap (descWords : Finset String) (r : CSVRow) : ℕ :=
  let label := r.preferredLabel.getD "nan"
  let definition := r.definitions.getD ""
  let synonyms := r.synonymsField.getD ""
  (descWords ∩ wordSet (label ++ " " ++ definition ++ " " ++ synonyms)).card

/-- Jaccard-normalized score of the legacy ranker (line 147):
`overlap / |description_words ∪ term_words|`. -/
def legacyScore (descWords : Finset String) (r : CSVRow) : ℚ :=
  let label := r.preferredLabel.getD "nan"
  let definition := r.definitions.getD ""
  let synonyms := r.synonymsField.getD ""
  let termWords := wordSet (label ++ " " ++ definition ++ " " ++ synonyms)
  ((descWords ∩ termWords).card : ℚ) / ((descWords ∪ termWords).card : ℚ)

/-- Candidate formatting of the legacy ranker (lines 149-154): label,
optional `: definition`, optional ` (Synonyms: ...)`. -/
def legacyFormat (r : CSVRow) : String :=
  let label := r.preferredLabel.getD "nan"
  let definition := r.definitions.getD ""
  let synonyms := r.synonymsField.getD ""
  (if definition ≠ "" then label ++ ": " ++ definition else label) ++
    (if synonyms ≠ "" then " (Synonyms: " ++ synonyms ++ ")" else "")

/-- The scored dict built by the legacy ranker (lines 129-159), in
insertion order: rows with positive overlap, keyed by id, carrying the
formatted description and the Jaccard score. -/
def legacyRelevant (rows : List CSVRow) (description : String) :
    List (String × String × ℚ) :=
  let descWords := wordSet description
  rows.foldl
    (fun acc r =>
      if legacyOverlap descWords r > 0 then
        dictInsert acc (rowKey r) (legacyFormat r, legacyScore descWords r)
      else acc)
    []

/-- Stable insertion of a scored candidate into a list sorted by
non-increasing score: the new element goes after every element of
score `≥` its own. -/
def insertByScoreDesc (x : String × String × ℚ) :
    List (String × String × ℚ) → List (String × String × ℚ)
  | [] => [x]
  | y :: ys =>
    if y.2.2 ≥ x.2.2 then y :: insertByScoreDesc x ys else x :: y :: ys

/-- Stable descending sort by score.  Python `sorted(..., reverse=True)`
is a stable sort, and the output of a stable sort by a fixed key is
unique, so insertion sort embeds it faithfully (line 162). -/
def pySortByScoreDesc (l : List (String × String × ℚ)) :
    List (String × String × ℚ) :=
  l.foldl (fun acc x => insertByScoreDesc x acc) []

/-- `EDAMMatchingSystem.search_relevant_terms` (lines 115-164), scored
form: sort the relevant dict items by descending score (stably) and
keep the first `top_k`. -/
def searchRelevantTermsLegacyScored (rows : List CSVRow) (description : String)
    (top_k : ℕ) : List (String × String × ℚ) :=
  (pySortByScoreDesc (legacyRelevant rows description)).take top_k

/-- `EDAMMatchingSystem.search_relevant_terms` final value (line 164):
id to formatted description, scores dropped. -/
def searchRelevantTermsLegacy (rows : List CSVRow) (description : String)
    (top_k : ℕ) : List (String × String) :=
  (searchRelevantTermsLegacyScored rows description top_k).map
    (fun p => (p.1, p.2.1))

/-! ## Batch runner
(`EnhancedEDAMMatchingSystem.process_packages_in_batches`, lines 510-574) -/

/-- An input record: the `name`/`description` fields may be absent
(`\x27name\x27 not in package`). -/
structure PackageRecord where
  name : Option String
  description : Option String
deriving DecidableEq

/-- Observable trace of the batch runner: per-item processing (or skip)
events and the durable write of a batch's results
(`json.dump(batch_results, f)`), with 1-based batch numbers. -/
inductive BatchEvent where
  | itemProcessed (batchNum : ℕ) (p : PackageRecord)
  | itemSkipped (batchNum : ℕ) (p : PackageRecord)
  | batchSaved (batchNum : ℕ) (results : List (PackageRecord × MatchResultDict))
deriving DecidableEq

/-- Per-item processing (lines 544-562): skip an item missing `name` or
`description`, else annotate it with the match returned by
`match_package_to_ontology` (abstracted as `matchFn name description`). -/
def processItem (matchFn : String → String → MatchResultDict) (p : PackageRecord) :
    Option (PackageRecord × MatchResultDict) :=
  match p.name, p.description with
  | some n, some d => some (p, matchFn n d)
  | _, _ => none

/-- `batch_results` of one batch: the annotated records of the items
that have both fields, in order. -/
def processBatchItems (matchFn : String → String → MatchResultDict)
    (batch : List PackageRecord) : List (PackageRecord × MatchResultDict) :=
  batch.filterMap (processItem matchFn)

/-- The events of one batch: every item is processed (or skipped) in
order, after which the batch's results are saved
(lines 542-572: the inner `for` loop completes before `json.dump`). -/
def batchTrace (matchFn : String → String → MatchResultDict) (batchNum : ℕ)
    (batch : List PackageRecord) : List BatchEvent :=
  batch.map (fun p =>
    match processItem matchFn p with
    | some _ => BatchEvent.itemProcessed batchNum p
    | none => BatchEvent.itemSkipped batchNum p) ++
  [BatchEvent.batchSaved batchNum (processBatchItems matchFn batch)]

/-- The slice of batch `k` (0-based), lines 536-538:
`packages_data[k*batch_size : min(k*batch_size + batch_size, total)]`. -/
def batchSlice (items : List PackageRecord) (batch_size k : ℕ) : List PackageRecord :=
  (items.drop (k * batch_size)).take
    (min (k * batch_size + batch_size) items.length - k * batch_size)

/-- `num_batches = math.ceil(total / batch_size)` (line 529), as the
exact integer ceiling. -/
def numBatches (total batch_size : ℕ) : ℕ :=
  (total + batch_size - 1) / batch_size

/-- `process_packages_in_batches` (lines 510-574): loop over the batch
indices, slice the batch, process its items, extend `all_results`, and
save the batch's results; returns the accumulated results and the event
trace. -/
def processPackagesInBatches (matchFn : String → String → MatchResultDict)
    (items : List PackageRecord) (batch_size : ℕ) :
    List (PackageRecord × MatchResultDict) × List BatchEvent :=
  (List.range (numBatches items.length batch_size)).foldl
    (fun acc k =>
      let batch := batchSlice items batch_size k
      (acc.1 ++ processBatchItems matchFn batch,
       acc.2 ++ batchTrace matchFn (k + 1) batch))
    ([], [])

/-! ## Concrete fixtures used by witnesses and counterexamples -/

/-- A match with confidence `0.3` (the rational `3/10` given in lowest
terms so that it evaluates by kernel reduction). -/
def sampleLow : OntologyMatch :=
  ⟨"http://edamontology.org/topic_0003", "Topic",
    ⟨3, 10, by decide, by decide⟩, "low", true⟩

/-- A match with confidence `0.9` (the rational `9/10`). -/
def sampleHigh : OntologyMatch :=
  ⟨"http://edamontology.org/topic_0080", "Sequence analysis",
    ⟨9, 10, by decide, by decide⟩, "high", true⟩

/-- A match with confidence `0.5` (the rational `1/2`). -/
def sampleMid : OntologyMatch :=
  ⟨"http://edamontology.org/operation_2945", "Analysis",
    ⟨1, 2, by decide, by decide⟩, "mid", true⟩

/-- A one-term vocabulary without synonyms. -/
def witnessValidator : EDAMValidator :=
  ⟨[⟨some "http://edamontology.org/topic_0001", some "Alpha", none, none, false⟩],
    false⟩

/-- A one-term vocabulary whose term has the synonym `GEX`, with synonym
support on. -/
def synonymValidator : EDAMValidator :=
  ⟨[⟨some "http://edamontology.org/topic_0001", some "Gene expression", none,
      some "GEX", false⟩],
    true⟩

/-- A term whose words overlap the description `alpha beta` once. -/
def rowA : CSVRow := ⟨some "idA", some "alpha", none, none, false⟩

/-- A term whose words overlap the description `alpha beta` twice. -/
def rowB : CSVRow := ⟨some "idB", some "alpha beta", none, none, false⟩

/-- Three input records, one of them missing a description. -/
def witnessItems : List PackageRecord :=
  [⟨some "pkgA", some "first description"⟩,
   ⟨some "pkgB", none⟩,
   ⟨some "pkgC", some "third description"⟩]

theorem chunkLoop_flatten (budget : ℤ) :
    ∀ (entries cur : List String) (curLen : ℤ),
      (chunkLoop budget entries cur curLen).flatten = cur ++ entries := by
  intro entries
  induction entries with
  | nil =>
    intro cur curLen
    by_cases h : cur = [] <;> simp [chunkLoop, h]
  | cons e rest ih =>
    intro cur curLen
    by_cases h : curLen + entryLen e > budget ∧ cur ≠ []
    · simp [chunkLoop, h, ih]
    · simp [chunkLoop, h, ih]

theorem chunkLoop_ne_nil (budget : ℤ) :
    ∀ (entries cur : List String) (curLen : ℤ) (c : List String),
      c ∈ chunkLoop budget entries cur curLen → c ≠ [] := by
  intro entries
  induction entries with
  | nil =>
    intro cur curLen c hc
    by_cases h : cur = [] <;> simp [chunkLoop, h] at hc
    exact hc ▸ h
  | cons e rest ih =>
    intro cur curLen c hc
    by_cases h : curLen + entryLen e > budget ∧ cur ≠ []
    · simp only [chunkLoop, if_pos h, List.mem_cons] at hc
      rcases hc with rfl | hc
      · exact h.2
      · exact ih _ _ c hc
    · simp only [chunkLoop, if_neg h] at hc
      exact ih _ _ c hc

theorem sumLen_nonneg : ∀ l : List String, 0 ≤ sumLen l := by
  intro l
  induction l with
  | nil => simp [sumLen]
  | cons e t ih =>
    have he : (0 : ℤ) ≤ (e.length : ℤ) := Int.ofNat_nonneg _
    simp only [sumLen, entryLen]
    omega

theorem entryLen_le_sumLen : ∀ (l : List String) (e : String), e ∈ l → entryLen e ≤ sumLen l := by
  intro l
  induction l with
  | nil => intro e he; simp at he
  | cons x t ih =>
    intro e he
    rcases List.mem_cons.mp he with rfl | he
    · have := sumLen_nonneg t
      simp only [sumLen]; omega
    · have h1 := ih e he
      have h2 : (0 : ℤ) ≤ (x.length : ℤ) := Int.ofNat_nonneg _
      simp only [sumLen, entryLen] at *
      omega

theorem sumLen_eq_map_sum (l : List String) : sumLen l = (l.map entryLen).sum := by
  induction l with
  | nil => simp [sumLen]
  | cons x t ih => simp [sumLen, ih]

theorem sumLen_append (l : List String) (e : String) :
    sumLen (l ++ [e]) = sumLen l + entryLen e := by
  simp [sumLen_eq_map_sum]

/-- Invariant proof: an entry whose `entryLen` exceeds the budget always
sits alone in its chunk. -/
theorem chunkLoop_oversized_alone (budget : ℤ) :
    ∀ (entries cur : List String),
      (∀ f ∈ cur, entryLen f > budget → cur = [f]) →
      ∀ c ∈ chunkLoop budget entries cur (sumLen cur),
        ∀ e ∈ c, entryLen e > budget → c = [e] := by
  intro entries
  induction entries with
  | nil =>
    intro cur hinv c hc e he hov
    by_cases h : cur = [] <;> simp [chunkLoop, h] at hc
    subst hc
    exact hinv e he hov
  | cons x rest ih =>
    intro cur hinv c hc e he hov
    by_cases h : sumLen cur + entryLen x > budget ∧ cur ≠ []
    · simp only [chunkLoop, if_pos h, List.mem_cons] at hc
      rcases hc with rfl | hc
      · exact hinv e he hov
      · have hx : ∀ f ∈ [x], entryLen f > budget → [x] = [f] := by
          intro f hf _
          simp only [List.mem_singleton] at hf
          simp [hf]
        have hsx : sumLen [x] = entryLen x := by simp [sumLen]
        exact ih [x] hx c (hsx ▸ hc) e he hov
    · simp only [chunkLoop, if_neg h] at hc
      have hinv' : ∀ f ∈ cur ++ [x], entryLen f > budget → cur ++ [x] = [f] := by
        intro f hf hovf
        by_cases hcur : cur = []
        · subst hcur
          simp only [List.nil_append, List.mem_singleton] at hf
          simp [hf]
        · have hle : sumLen cur + entryLen x ≤ budget := by
            by_contra hgt
            exact h ⟨by omega, hcur⟩
          have hfle : entryLen f ≤ sumLen (cur ++ [x]) := entryLen_le_sumLen _ f hf
          rw [sumLen_append] at hfle
          omega
      have hc' : c ∈ chunkLoop budget rest (cur ++ [x]) (sumLen (cur ++ [x])) := by
        rw [sumLen_append]; exact hc
      exact ih (cur ++ [x]) hinv' c hc' e he hov

/-! ## Claim theorems: chunker -/

/-- C1 (chunk completeness): for every list of formatted vocabulary
entries and every character budget at least as large as the longest
single entry, concatenating the chunks in order reproduces the entry
list exactly once each, in order, with no entry split or duplicated. -/
theorem chunk_completeness (entries : List String) (budget : ℤ)
    (_hbudget : ∀ e ∈ entries, (e.length : ℤ) ≤ budget) :
    (chunkEntries budget entries).flatten = entries := by
  simpa [chunkEntries] using chunkLoop_flatten budget entries [] 0

theorem chunk_completeness_witness :
    (∀ e ∈ ["alpha", "beta", "gamma"], (e.length : ℤ) ≤ 12) ∧
    (chunkEntries 12 ["alpha", "beta", "gamma"]).flatten =
      ["alpha", "beta", "gamma"] :=
  ⟨by decide, chunk_completeness ["alpha", "beta", "gamma"] 12 (by decide)⟩

/-- C10 (oversized-entry chunking): for every budget, even one smaller
than some entry or negative, the chunker reproduces the entries exactly
(no drop, split or duplication), never emits an empty chunk, and puts
every entry whose accounted length (`len + 1` for the joining newline)
exceeds the whole budget alone in its own chunk. -/
theorem chunk_oversized_entries (budget : ℤ) (entries : List String) :
    (chunkEntries budget entries).flatten = entries ∧
    (∀ c ∈ chunkEntries budget entries, c ≠ []) ∧
    (∀ c ∈ chunkEntries budget entries, ∀ e ∈ c,
      (e.length : ℤ) + 1 > budget → c = [e]) := by
  refine ⟨?_, ?_, ?_⟩
  · simpa [chunkEntries] using chunkLoop_flatten budget entries [] 0
  · intro c hc
    exact chunkLoop_ne_nil budget entries [] 0 c hc
  · intro c hc e he hov
    have hinv : ∀ f ∈ ([] : List String), entryLen f > budget → [] = [f] := by
      intro f hf
      simp at hf
    exact chunkLoop_oversized_alone budget entries [] hinv c hc e he hov

theorem chunk_oversized_entries_witness :
    (["abcdef"] ∈ chunkEntries 3 ["abcdef", "x"]) ∧
    ("abcdef" ∈ (["abcdef"] : List String)) ∧
    ((("abcdef" : String).length : ℤ) + 1 > 3) ∧
    (["abcdef"] : List String) = ["abcdef"] :=
  ⟨by decide, by decide, by decide,
    (chunk_oversized_entries 3 ["abcdef", "x"]).2.2 ["abcdef"] (by decide)
      "abcdef" (by decide) (by decide)⟩

/-! ## Claim theorems: aggregation -/

theorem aggStep_foldl_lt (q : ℚ) :
    ∀ (xs : List OntologyMatch) (acc : Option OntologyMatch × ℚ),
      acc.2 < q → (∀ x ∈ xs, x.confidence_score < q) →
      (xs.foldl aggStep acc).2 < q := by
  intro xs
  induction xs with
  | nil => intro acc h _; simpa using h
  | cons x rest ih =>
    intro acc hacc hall
    have hx := hall x (List.mem_cons_self x rest)
    have hrest : ∀ y ∈ rest, y.confidence_score < q := fun y hy =>
      hall y (List.mem_cons_of_mem x hy)
    rw [List.foldl_cons]
    by_cases hgt : x.confidence_score > acc.2
    · exact ih (aggStep acc x) (by simp [aggStep, hgt]; exact hx) hrest
    · exact ih (aggStep acc x) (by simp [aggStep, hgt]; exact hacc) hrest

theorem aggStep_foldl_le :
    ∀ (ys : List OntologyMatch) (acc : Option OntologyMatch × ℚ),
      (∀ y ∈ ys, y.confidence_score ≤ acc.2) → ys.foldl aggStep acc = acc := by
  intro ys
  induction ys with
  | nil => intro acc _; rfl
  | cons y rest ih =>
    intro acc hall
    have hy := hall y (List.mem_cons_self y rest)
    have hstep : aggStep acc y = acc := by
      simp [aggStep]
      intro h
      exact absurd h (not_lt.mpr hy)
    rw [List.foldl_cons, hstep]
    exact ih acc (fun z hz => hall z (List.mem_cons_of_mem y hz))

/-- Supporting lemma: the candidate that strictly dominates everything
before it and is not beaten by anything after it is the one retained. -/
theorem aggregate_earliest_max (xs : List OntologyMatch) (m : OntologyMatch)
    (ys : List OntologyMatch)
    (hxs : ∀ x ∈ xs, x.confidence_score < m.confidence_score)
    (hys : ∀ y ∈ ys, y.confidence_score ≤ m.confidence_score)
    (hm : (-1 : ℚ) < m.confidence_score) :
    (aggregateMatches (xs ++ m :: ys)).1 = some m := by
  unfold aggregateMatches
  rw [List.foldl_append]
  have hA2 : (xs.foldl aggStep ((none : Option OntologyMatch), (-1 : ℚ))).2 <
      m.confidence_score :=
    aggStep_foldl_lt m.confidence_score xs (none, -1) (by simpa using hm) hxs
  have hstep : aggStep (xs.foldl aggStep (none, -1)) m =
      (some m, m.confidence_score) := by
    simp [aggStep, hA2]
  rw [List.foldl_cons, hstep]
  rw [aggStep_foldl_le ys (some m, m.confidence_score) (by simpa using hys)]

/-- C3 (aggregator selection): the aggregation over the candidates of
successive chunks keeps the candidate with the strictly highest
confidence, ties keeping the earliest: the candidate that strictly
dominates everything before it and is not beaten by anything after it
is the one retained.  In particular, over the fixed candidates with
confidences `0.3`, `0.9`, `0.5`, the `0.9` candidate is selected under
every permutation of the sequence. -/
theorem aggregator_selection :
    (∀ (xs : List OntologyMatch) (m : OntologyMatch) (ys : List OntologyMatch),
      (∀ x ∈ xs, x.confidence_score < m.confidence_score) →
      (∀ y ∈ ys, y.confidence_score ≤ m.confidence_score) →
      (-1 : ℚ) < m.confidence_score →
      (aggregateMatches (xs ++ m :: ys)).1 = some m) ∧
    (∀ l : List OntologyMatch, l.Perm [sampleLow, sampleHigh, sampleMid] →
      (aggregateMatches l).1 = some sampleHigh) := by
  refine ⟨aggregate_earliest_max, ?_⟩
  intro l hl
  have hmem : sampleHigh ∈ l := hl.mem_iff.mpr (by decide)
  obtain ⟨xs, ys, rfl⟩ := List.append_of_mem hmem
  have hcount : (xs ++ sampleHigh :: ys).count sampleHigh = 1 := by
    rw [hl.count_eq]
    decide
  rw [List.count_append, List.count_cons_self] at hcount
  have hxnotin : sampleHigh ∉ xs := by
    rw [← List.count_eq_zero]
    omega
  have hsub := hl.subset
  apply aggregate_earliest_max
  · intro x hx
    have hxl := hsub (List.mem_append_left (sampleHigh :: ys) hx)
    simp only [List.mem_cons, List.not_mem_nil, or_false] at hxl
    rcases hxl with rfl | rfl | rfl
    · decide
    · exact absurd hx hxnotin
    · decide
  · intro y hy
    have hyl := hsub (List.mem_append_right xs (List.mem_cons_of_mem sampleHigh hy))
    simp only [List.mem_cons, List.not_mem_nil, or_false] at hyl
    rcases hyl with rfl | rfl | rfl
    · decide
    · decide
    · decide
  · decide

theorem aggregator_selection_witness :
    (aggregateMatches [sampleLow, sampleHigh, sampleMid]).1 = some sampleHigh :=
  aggregator_selection.1 [sampleLow] sampleHigh [sampleMid]
    (by decide) (by decide) (by decide)

/-! ## Claim theorems: oracle failure handling -/

theorem runChunkAttempts_fail (v : EDAMValidator) (o : ℕ → OracleResult)
    (h : ∀ a, (o a).isSuccess = false) :
    ∀ (fuel attempt : ℕ), (runChunkAttempts v o fuel attempt).1 = none := by
  intro fuel
  induction fuel with
  | zero => intro _; rfl
  | succ n ih =>
    intro attempt
    cases ho : o attempt with
    | success i l c r =>
      have := h attempt
      rw [ho] at this
      simp [OracleResult.isSuccess] at this
    | rateLimitError =>
      by_cases hn : 1 ≤ n
      · simp [runChunkAttempts, ho, hn, ih (attempt + 1)]
      · simp [runChunkAttempts, ho, hn]
    | otherError =>
      simp [runChunkAttempts, ho]

theorem matchChunksLoop_allfail (v : EDAMValidator) (oracle : ℕ → ℕ → OracleResult)
    (h : ∀ i a, (oracle i a).isSuccess = false) :
    ∀ (chunks : List (List String)) (idx : ℕ) (best : Option OntologyMatch)
      (bestConf : ℚ), matchChunksLoop v oracle chunks idx best bestConf = best := by
  intro chunks
  induction chunks with
  | nil => intro idx best bestConf; rfl
  | cons c rest ih =>
    intro idx best bestConf
    have hc : (runChunkAttempts v (oracle idx) 3 0).1 = none :=
      runChunkAttempts_fail v (oracle idx) (fun a => h idx a) 3 0
    simp [matchChunksLoop, hc, ih]

/-- C2 (fallback guarantee): when every oracle call fails (with any kind
of error, under any retry schedule), `match_package_to_ontology` still
returns the structurally valid fallback dictionary: the fixed
unclassified sentinel id/label pair, `confidence_score = 0.1`,
`validated = false`, and a reasoning string stating that no valid match
was found.  The embedding is a total function, so a null result is
impossible by construction. -/
theorem fallback_guarantee (rows : List CSVRow) (use_synonyms simple_mode : Bool)
    (oracle : ℕ → ℕ → OracleResult) (package_name package_description : String)
    (h : ∀ i a, (oracle i a).isSuccess = false) :
    matchPackageToOntology rows use_synonyms simple_mode oracle package_name
        package_description = fallbackMatchResult ∧
    fallbackMatchResult.confidence_score = 1/10 ∧
    fallbackMatchResult.validated = false ∧
    fallbackMatchResult.edam_id = "http://edamontology.org/topic_3365" ∧
    fallbackMatchResult.edam_label = "Data architecture, analysis and design" ∧
    fallbackMatchResult.reasoning =
      "Error during matching: No valid match found in any chunk." := by
  refine ⟨?_, by norm_num [fallbackMatchResult], rfl, rfl, rfl, rfl⟩
  simp only [matchPackageToOntology, matchChunksLoop_allfail _ _ h]

theorem fallback_guarantee_witness :
    matchPackageToOntology [] false true (fun _ _ => OracleResult.otherError)
      "pkg" "desc" = fallbackMatchResult :=
  (fallback_guarantee [] false true (fun _ _ => OracleResult.otherError)
    "pkg" "desc" (fun _ _ => rfl)).1

/-- C6 (oracle retry policy): a chunk whose calls keep failing with the
transient-capacity signal is attempted exactly `max_retries = 3` times,
with a linear backoff sleep of `10 * attempt_number` seconds before the
second and third attempts; a chunk whose first call fails with any
other error is aborted immediately after that single call, with no
sleep; and a chunk whose retry loop produced no result is skipped by
the aggregation loop, leaving the best match and the rest of the item's
processing untouched. -/
theorem oracle_retry_policy :
    (∀ (v : EDAMValidator) (o : ℕ → OracleResult),
      (∀ a, o a = OracleResult.rateLimitError) →
      runChunkAttempts v o 3 0 =
        (none, [OracleEvent.call 0, OracleEvent.sleep 10, OracleEvent.call 1,
                OracleEvent.sleep 20, OracleEvent.call 2])) ∧
    (∀ (v : EDAMValidator) (o : ℕ → OracleResult),
      o 0 = OracleResult.otherError →
      runChunkAttempts v o 3 0 = (none, [OracleEvent.call 0])) ∧
    (∀ (v : EDAMValidator) (oracle : ℕ → ℕ → OracleResult) (c : List String)
      (chunks : List (List String)) (idx : ℕ) (best : Option OntologyMatch)
      (bestConf : ℚ),
      (runChunkAttempts v (oracle idx) 3 0).1 = none →
      matchChunksLoop v oracle (c :: chunks) idx best bestConf =
        matchChunksLoop v oracle chunks (idx + 1) best bestConf) := by
  refine ⟨?_, ?_, ?_⟩
  · intro v o h
    simp [runChunkAttempts, h 0, h 1, h 2]
  · intro v o h
    simp [runChunkAttempts, h]
  · intro v oracle c chunks idx best bestConf h
    simp [matchChunksLoop, h]

theorem oracle_retry_policy_witness :
    runChunkAttempts ⟨[], false⟩ (fun _ => OracleResult.rateLimitError) 3 0 =
      (none, [OracleEvent.call 0, OracleEvent.sleep 10, OracleEvent.call 1,
              OracleEvent.sleep 20, OracleEvent.call 2]) :=
  oracle_retry_policy.1 ⟨[], false⟩ (fun _ => OracleResult.rateLimitError)
    (fun _ => rfl)

/-! ## Claim theorems: validator -/

theorem dictLast_foldl_some {α : Type} (k : String) (v : α) :
    ∀ (assigns : List (String × α)) (acc : Option α),
      (acc = some v ∨ (k, v) ∈ assigns) →
      (∀ p ∈ assigns, p.1 = k → p.2 = v) →
      assigns.foldl (fun acc p => if p.1 = k then some p.2 else acc) acc = some v := by
  intro assigns
  induction assigns with
  | nil =>
    intro acc hin _
    rcases hin with h | h
    · simpa using h
    · simp at h
  | cons p rest ih =>
    intro acc hin hall
    rw [List.foldl_cons]
    by_cases hp : p.1 = k
    · have hv : p.2 = v := hall p (List.mem_cons_self p rest) hp
      refine ih _ (Or.inl ?_) (fun q hq => hall q (List.mem_cons_of_mem p hq))
      simp [hp, hv]
    · refine ih _ ?_ (fun q hq => hall q (List.mem_cons_of_mem p hq))
      rcases hin with h | h
      · exact Or.inl (by simp [hp, h])
      · rcases List.mem_cons.mp h with h' | h'
        · exact absurd (congrArg Prod.fst h'.symm) hp
        · exact Or.inr h'
  
theorem dictLast_eq_of_unique {α : Type} (assigns : List (String × α)) (k : String)
    (v : α) (hmem : (k, v) ∈ assigns)
    (huniq : ∀ p ∈ assigns, p.1 = k → p.2 = v) :
    dictLast assigns k = some v :=
  dictLast_foldl_some k v assigns none (Or.inr hmem) huniq

/-- C4 (validator round-trip): under the vocabulary invariant that class
ids are unique (each id is assigned one preferred label) and the term's
label is a real non-empty string, every non-obsolete term loaded into
the validator validates against its own preferred label, and `fix_match`
of its id with any invalid label returns exactly the canonical pair. -/
theorem validator_round_trip (v : EDAMValidator) (r : CSVRow) (tid tlbl : String)
    (hr : r ∈ v.rows) (_hobs : r.obsolete = false)
    (hcid : r.classId = some tid) (hlbl : r.preferredLabel = some tlbl)
    (hne : tlbl ≠ "")
    (huniq : ∀ p ∈ EDAMValidator.idLabelAssigns v.rows, p.1 = tid → p.2 = tlbl) :
    (EDAMValidator.validate_match v tid tlbl).1 = true ∧
    (∀ L, EDAMValidator.validate_label v L = false →
      EDAMValidator.fix_match v tid L = (tid, tlbl)) := by
  have hmem : (tid, tlbl) ∈ EDAMValidator.idLabelAssigns v.rows := by
    simp only [EDAMValidator.idLabelAssigns, List.mem_filterMap]
    exact ⟨r, hr, by rw [hcid, hlbl]⟩
  have hid : EDAMValidator.validate_id v tid = true := by
    simp only [EDAMValidator.validate_id, List.any_eq_true, decide_eq_true_eq]
    exact ⟨r, hr, hcid⟩
  have hlabmem : EDAMValidator.validLabelsMem v tlbl = true := by
    simp only [EDAMValidator.validLabelsMem, List.any_eq_true, decide_eq_true_eq]
    exact ⟨r, hr, hlbl⟩
  have hidl : EDAMValidator.id_to_label v tid = some tlbl :=
    dictLast_eq_of_unique _ _ _ hmem huniq
  have hvl : EDAMValidator.validate_label v tlbl = true := by
    simp [EDAMValidator.validate_label, hlabmem]
  constructor
  · simp [EDAMValidator.validate_match, hid, hvl, hidl]
  · intro L _
    simp [EDAMValidator.fix_match, EDAMValidator.get_label_for_id, hid, hidl,
      EDAMValidator.pyTruthy, hne]

theorem validator_round_trip_witness :
    (EDAMValidator.validate_match witnessValidator
        "http://edamontology.org/topic_0001" "Alpha").1 = true ∧
    EDAMValidator.fix_match witnessValidator
        "http://edamontology.org/topic_0001" "Wrong label" =
      ("http://edamontology.org/topic_0001", "Alpha") := by
  have h := validator_round_trip witnessValidator
    ⟨some "http://edamontology.org/topic_0001", some "Alpha", none, none, false⟩
    "http://edamontology.org/topic_0001" "Alpha"
    (by decide) rfl rfl rfl (by decide) (by decide)
  exact ⟨h.1, h.2 "Wrong label" (by decide)⟩

/-- C5 counterexample: with synonym support on, a label that is valid
only via the synonym index (`GEX`, a synonym of `Gene expression`)
paired with an invalid id is NOT repaired by `fix_match`: the canonical
id lookup `get_id_for_label` consults only the preferred-label index,
so the pair is returned unchanged, not as
`(canonical_id_of_label, label)`. -/
theorem repair_contract_counterexample :
    EDAMValidator.validate_id synonymValidator "badid" = false ∧
    EDAMValidator.validate_label synonymValidator "GEX" = true ∧
    EDAMValidator.synonym_to_id synonymValidator "GEX" =
      some "http://edamontology.org/topic_0001" ∧
    EDAMValidator.fix_match synonymValidator "badid" "GEX" = ("badid", "GEX") ∧
    ("badid", "GEX") ≠ ("http://edamontology.org/topic_0001", "GEX") := by
  decide

/-- C5 amended (repair contract): for every input pair, `fix_match`
returns `(id, canonical_label_of_id)` when the id is valid and its
canonical label is a truthy string; otherwise
`(canonical_id_of_label, label)` when the label is valid and its
canonical id under the PREFERRED-LABEL index is truthy (validity that
holds only via the synonym index yields no canonical id there, so such
a pair falls through); otherwise the input pair unchanged. -/
theorem repair_contract_amended (v : EDAMValidator) (edam_id edam_label : String) :
    (EDAMValidator.validate_id v edam_id = true →
      EDAMValidator.pyTruthy (EDAMValidator.get_label_for_id v edam_id) = true →
      EDAMValidator.fix_match v edam_id edam_label =
        (edam_id, (EDAMValidator.get_label_for_id v edam_id).getD "")) ∧
    ((EDAMValidator.validate_id v edam_id = false ∨
        EDAMValidator.pyTruthy (EDAMValidator.get_label_for_id v edam_id) = false) →
      EDAMValidator.validate_label v edam_label = true →
      EDAMValidator.pyTruthy (EDAMValidator.get_id_for_label v edam_label) = true →
      EDAMValidator.fix_match v edam_id edam_label =
        ((EDAMValidator.get_id_for_label v edam_label).getD "", edam_label)) ∧
    ((EDAMValidator.validate_id v edam_id = false ∨
        EDAMValidator.pyTruthy (EDAMValidator.get_label_for_id v edam_id) = false) →
      (EDAMValidator.validate_label v edam_label = false ∨
        EDAMValidator.pyTruthy (EDAMValidator.get_id_for_label v edam_label) = false) →
      EDAMValidator.fix_match v edam_id edam_label = (edam_id, edam_label)) := by
  refine ⟨?_, ?_, ?_⟩
  · intro h1 h2
    simp [EDAMValidator.fix_match, h1, h2]
  · intro hfail hv hp
    have hcond : ¬(EDAMValidator.validate_id v edam_id = true ∧
        EDAMValidator.pyTruthy (EDAMValidator.get_label_for_id v edam_id) = true) := by
      rcases hfail with h | h <;> simp [h]
    simp only [EDAMValidator.fix_match]
    rw [if_neg (by simpa using hcond), if_pos (by simp [hv, hp])]
  · intro hfail1 hfail2
    have hcond1 : ¬(EDAMValidator.validate_id v edam_id = true ∧
        EDAMValidator.pyTruthy (EDAMValidator.get_label_for_id v edam_id) = true) := by
      rcases hfail1 with h | h <;> simp [h]
    have hcond2 : ¬(EDAMValidator.validate_label v edam_label = true ∧
        EDAMValidator.pyTruthy (EDAMValidator.get_id_for_label v edam_label) = true) := by
      rcases hfail2 with h | h <;> simp [h]
    simp only [EDAMValidator.fix_match]
    rw [if_neg (by simpa using hcond1), if_neg (by simpa using hcond2)]

theorem repair_contract_amended_witness :
    EDAMValidator.fix_match witnessValidator
        "http://edamontology.org/topic_0001" "Wrong" =
      ("http://edamontology.org/topic_0001", "Alpha") := by
  have h := (repair_contract_amended witnessValidator
    "http://edamontology.org/topic_0001" "Wrong").1 (by decide) (by decide)
  rw [h]
  decide

theorem dictLast_isSome_of_mem {α : Type} (k : String) (v : α) :
    ∀ (assigns : List (String × α)) (acc : Option α),
      ((k, v) ∈ assigns ∨ acc.isSome = true) →
      (assigns.foldl (fun acc p => if p.1 = k then some p.2 else acc)
          acc).isSome = true := by
  intro assigns
  induction assigns with
  | nil =>
    intro acc h
    rcases h with h | h
    · simp at h
    · simpa using h
  | cons p rest ih =>
    intro acc h
    rw [List.foldl_cons]
    by_cases hp : p.1 = k
    · exact ih _ (Or.inr (by rw [if_pos hp]; rfl))
    · refine ih _ ?_
      rcases h with h | h
      · rcases List.mem_cons.mp h with h1 | h1
        · exact absurd (congrArg Prod.fst h1.symm) hp
        · exact Or.inl h1
      · exact Or.inr (by rw [if_neg hp]; exact h)

theorem dictLast_mem_of_eq {α : Type} (k : String) (v : α) :
    ∀ (assigns : List (String × α)) (acc : Option α),
      assigns.foldl (fun acc p => if p.1 = k then some p.2 else acc) acc =
          some v →
      (k, v) ∈ assigns ∨ acc = some v := by
  intro assigns
  induction assigns with
  | nil =>
    intro acc h
    exact Or.inr (by simpa using h)
  | cons p rest ih =>
    intro acc h
    rw [List.foldl_cons] at h
    rcases ih _ h with hmem | hacc
    · exact Or.inl (List.mem_cons_of_mem p hmem)
    · by_cases hp : p.1 = k
      · rw [if_pos hp] at hacc
        have hv : p.2 = v := Option.some.inj hacc
        left
        rw [← hp, ← hv]
        exact List.mem_cons_self p rest
      · rw [if_neg hp] at hacc
        exact Or.inr hacc

theorem mem_idLabelAssigns (rows : List CSVRow) (i l : String) :
    (i, l) ∈ EDAMValidator.idLabelAssigns rows ↔
      ∃ r ∈ rows, r.classId = some i ∧ r.preferredLabel = some l := by
  unfold EDAMValidator.idLabelAssigns
  rw [List.mem_filterMap]
  constructor
  · rintro ⟨r, hr, hm⟩
    refine ⟨r, hr, ?_⟩
    rcases hc : r.classId with _ | a <;> rcases hp : r.preferredLabel with _ | b <;>
        rw [hc, hp] at hm <;> simp at hm
    exact ⟨by rw [hm.1], by rw [hm.2]⟩
  · rintro ⟨r, hr, hc, hp⟩
    exact ⟨r, hr, by rw [hc, hp]⟩

/-- C8 counterexample: an obsolete row is NOT filtered out of the
validator\x27s indexes: its id still validates, its id still resolves to
its label, and its label still resolves to its id, contradicting the
claim that `exists_id(t.id)` is false and that the lookups resolve over
non-obsolete terms only. -/
theorem nonobsolete_indexing_counterexample :
    (⟨some "http://edamontology.org/topic_9999", some "Old term", none, none,
        true⟩ : CSVRow).obsolete = true ∧
    EDAMValidator.validate_id
      ⟨[⟨some "http://edamontology.org/topic_9999", some "Old term", none, none,
          true⟩], false⟩
      "http://edamontology.org/topic_9999" = true ∧
    EDAMValidator.get_label_for_id
      ⟨[⟨some "http://edamontology.org/topic_9999", some "Old term", none, none,
          true⟩], false⟩
      "http://edamontology.org/topic_9999" = some "Old term" ∧
    EDAMValidator.get_id_for_label
      ⟨[⟨some "http://edamontology.org/topic_9999", some "Old term", none, none,
          true⟩], false⟩
      "Old term" = some "http://edamontology.org/topic_9999" := by
  decide

/-- C8 amended (non-obsolete indexing): obsolete terms are filtered out
of the MATCHING term table (`self.edam_df[self.edam_df[...] == False]`,
used to build candidate entries), but the validator\x27s indexes are
built over all CSV rows, so for any row with non-null id and label,
obsolete or not: the id validates, `get_label_for_id` of the id and
`get_id_for_label` of the label both resolve to a value, and every
value either lookup resolves to comes from some row of the full table
(obsolete rows included), not from the non-obsolete rows only. -/
theorem nonobsolete_indexing_amended (rows : List CSVRow) (u : Bool) :
    (∀ r ∈ activeTerms rows, r.obsolete = false) ∧
    (∀ r ∈ rows, ∀ i : String, r.classId = some i →
      EDAMValidator.validate_id ⟨rows, u⟩ i = true) ∧
    (∀ r ∈ rows, ∀ i l : String, r.classId = some i →
      r.preferredLabel = some l →
      (EDAMValidator.get_label_for_id ⟨rows, u⟩ i).isSome = true ∧
      (EDAMValidator.get_id_for_label ⟨rows, u⟩ l).isSome = true) ∧
    (∀ i l : String, EDAMValidator.get_label_for_id ⟨rows, u⟩ i = some l →
      ∃ r ∈ rows, r.classId = some i ∧ r.preferredLabel = some l) ∧
    (∀ l i : String, EDAMValidator.get_id_for_label ⟨rows, u⟩ l = some i →
      ∃ r ∈ rows, r.classId = some i ∧ r.preferredLabel = some l) := by
  refine ⟨?_, ?_, ?_, ?_, ?_⟩
  · intro r hr
    have := List.mem_filter.mp hr
    simpa using this.2
  · intro r hr i hi
    simp only [EDAMValidator.validate_id, List.any_eq_true, decide_eq_true_eq]
    exact ⟨r, hr, hi⟩
  · intro r hr i l hc hl
    have hmem : (i, l) ∈ EDAMValidator.idLabelAssigns rows :=
      (mem_idLabelAssigns rows i l).mpr ⟨r, hr, hc, hl⟩
    constructor
    · exact dictLast_isSome_of_mem i l (EDAMValidator.idLabelAssigns rows) none
        (Or.inl hmem)
    · refine dictLast_isSome_of_mem l i
        ((EDAMValidator.idLabelAssigns rows).map (fun p => (p.2, p.1))) none
        (Or.inl ?_)
      exact List.mem_map.mpr ⟨(i, l), hmem, rfl⟩
  · intro i l h
    have hd := dictLast_mem_of_eq i l (EDAMValidator.idLabelAssigns rows) none h
    rcases hd with hd | hd
    · exact (mem_idLabelAssigns rows i l).mp hd
    · simp at hd
  · intro l i h
    have h' : ((EDAMValidator.idLabelAssigns rows).map
        (fun p => (p.2, p.1))).foldl
        (fun acc p => if p.1 = l then some p.2 else acc) none = some i := h
    have hd := dictLast_mem_of_eq l i _ none h'
    rcases hd with hd | hd
    · rcases List.mem_map.mp hd with ⟨p, hp, hpe⟩
      have hp1 : p.1 = i := congrArg Prod.snd hpe
      have hp2 : p.2 = l := congrArg Prod.fst hpe
      refine (mem_idLabelAssigns rows i l).mp ?_
      rw [← hp1, ← hp2]
      exact hp
    · simp at hd

theorem nonobsolete_indexing_amended_witness :
    EDAMValidator.validate_id
      ⟨[⟨some "http://edamontology.org/topic_9999", some "Old term", none, none,
          true⟩], false⟩
      "http://edamontology.org/topic_9999" = true ∧
    (EDAMValidator.get_label_for_id
      ⟨[⟨some "http://edamontology.org/topic_9999", some "Old term", none, none,
          true⟩], false⟩
      "http://edamontology.org/topic_9999").isSome = true ∧
    (EDAMValidator.get_id_for_label
      ⟨[⟨some "http://edamontology.org/topic_9999", some "Old term", none, none,
          true⟩], false⟩
      "Old term").isSome = true := by
  have h := nonobsolete_indexing_amended
    [⟨some "http://edamontology.org/topic_9999", some "Old term", none, none,
      true⟩] false
  refine ⟨?_, ?_, ?_⟩
  · exact h.2.1
      ⟨some "http://edamontology.org/topic_9999", some "Old term", none, none,
        true⟩ (by decide) "http://edamontology.org/topic_9999" rfl
  · exact (h.2.2.1
      ⟨some "http://edamontology.org/topic_9999", some "Old term", none, none,
        true⟩ (by decide) "http://edamontology.org/topic_9999" "Old term" rfl
      rfl).1
  · exact (h.2.2.1
      ⟨some "http://edamontology.org/topic_9999", some "Old term", none, none,
        true⟩ (by decide) "http://edamontology.org/topic_9999" "Old term" rfl
      rfl).2

/-! ## Claim theorems: batch runner -/

theorem numBatches_zero (bs : ℕ) (hbs : 0 < bs) : numBatches 0 bs = 0 := by
  unfold numBatches
  exact Nat.div_eq_of_lt (by omega)

theorem numBatches_succ (n bs : ℕ) (hbs : 0 < bs) (hn : 0 < n) :
    numBatches n bs = numBatches (n - bs) bs + 1 := by
  unfold numBatches
  rcases le_or_lt bs n with h | h
  · have h1 : n + bs - 1 = (n - 1) + bs := by omega
    have h2 : n - bs + bs - 1 = n - 1 := by omega
    rw [h1, h2, Nat.add_div_right _ hbs]
  · have h0 : n - bs = 0 := by omega
    rw [h0]
    have hr : (0 + bs - 1) / bs = 0 := Nat.div_eq_of_lt (by omega)
    rw [hr]
    exact Nat.div_eq_of_lt_le (by omega) (by omega)

theorem batchSlice_zero (items : List PackageRecord) (bs : ℕ) :
    batchSlice items bs 0 = items.take (min bs items.length) := by
  unfold batchSlice
  simp

theorem batchSlice_succ (items : List PackageRecord) (bs k : ℕ) :
    batchSlice items bs (k + 1) = batchSlice (items.drop bs) bs k := by
  unfold batchSlice
  rw [List.length_drop, List.drop_drop]
  have h : (k + 1) * bs = bs + k * bs := by ring
  rw [h]
  congr 1
  omega

theorem batchSlice_length_le (items : List PackageRecord) (bs k : ℕ) :
    (batchSlice items bs k).length ≤ bs := by
  unfold batchSlice
  exact le_trans (List.length_take_le _ _) (by omega)

theorem batchSlices_flatten (bs : ℕ) (hbs : 0 < bs) :
    ∀ (m : ℕ) (items : List PackageRecord), numBatches items.length bs = m →
      ((List.range m).map (batchSlice items bs)).flatten = items := by
  intro m
  induction m with
  | zero =>
    intro items h
    unfold numBatches at h
    have h0 : items.length + bs - 1 < bs := (Nat.div_eq_zero_iff hbs).mp h
    have : items.length = 0 := by omega
    rw [List.length_eq_zero.mp this]
    simp
  | succ m ih =>
    intro items h
    have hn : 0 < items.length := by
      by_contra h0
      push_neg at h0
      have hz : items.length = 0 := by omega
      rw [hz, numBatches_zero bs hbs] at h
      exact Nat.succ_ne_zero m h.symm
    have hrec : numBatches (items.drop bs).length bs = m := by
      rw [List.length_drop]
      have hs := numBatches_succ items.length bs hbs hn
      omega
    rw [List.range_succ_eq_map, List.map_cons, List.flatten_cons, List.map_map]
    have hmap : (List.range m).map (batchSlice items bs ∘ Nat.succ) =
        (List.range m).map (batchSlice (items.drop bs) bs) := by
      apply List.map_congr_left
      intro k _
      exact batchSlice_succ items bs k
    rw [hmap, ih _ hrec, batchSlice_zero]
    rcases le_total bs items.length with hle | hle
    · rw [min_eq_left hle]
      exact List.take_append_drop bs items
    · rw [min_eq_right hle, List.take_length, List.drop_eq_nil_of_le hle]
      simp

theorem foldl_batches_split (matchFn : String → String → MatchResultDict)
    (items : List PackageRecord) (bs : ℕ) :
    ∀ (m : ℕ) (acc1 : List (PackageRecord × MatchResultDict))
      (acc2 : List BatchEvent),
      (List.range m).foldl
        (fun acc k =>
          (acc.1 ++ processBatchItems matchFn (batchSlice items bs k),
           acc.2 ++ batchTrace matchFn (k + 1) (batchSlice items bs k)))
        (acc1, acc2) =
      (acc1 ++ ((List.range m).map
          (fun k => processBatchItems matchFn (batchSlice items bs k))).flatten,
       acc2 ++ ((List.range m).map
          (fun k => batchTrace matchFn (k + 1) (batchSlice items bs k))).flatten) := by
  intro m
  induction m with
  | zero => intro acc1 acc2; simp
  | succ m ih =>
    intro acc1 acc2
    rw [List.range_succ, List.foldl_append, ih]
    simp [List.append_assoc]

/-- C9 (batch partitioning and persistence order): the batch runner
partitions the input into consecutive slices of at most `batch_size`
(in input order, their concatenation being exactly the input), and its
observable trace is exactly, per batch in order: the per-item events of
that batch followed by the durable write of that batch's results.  In
particular every batch's save event happens after all of its items and
before any event of the following batch. -/
theorem batch_partition_persistence (matchFn : String → String → MatchResultDict)
    (items : List PackageRecord) (bs : ℕ) (hbs : 0 < bs) :
    (((List.range (numBatches items.length bs)).map
        (batchSlice items bs)).flatten = items) ∧
    (∀ k ∈ List.range (numBatches items.length bs),
        (batchSlice items bs k).length ≤ bs) ∧
    processPackagesInBatches matchFn items bs =
      (((List.range (numBatches items.length bs)).map
          (fun k => processBatchItems matchFn (batchSlice items bs k))).flatten,
       ((List.range (numBatches items.length bs)).map
          (fun k => batchTrace matchFn (k + 1) (batchSlice items bs k))).flatten) := by
  refine ⟨batchSlices_flatten bs hbs _ items rfl,
    fun k _ => batchSlice_length_le items bs k, ?_⟩
  unfold processPackagesInBatches
  rw [foldl_batches_split matchFn items bs _ [] []]
  simp

theorem batch_partition_persistence_witness :
    ((List.range (numBatches witnessItems.length 2)).map
        (batchSlice witnessItems 2)).flatten = witnessItems :=
  (batch_partition_persistence (fun _ _ => fallbackMatchResult) witnessItems 2
    (by decide)).1

/-! ## Claim theorems: relevance rankers -/

theorem mem_dictInsert {α : Type} (l : List (String × α)) (k : String) (v : α)
    (q : String × α) (hq : q ∈ dictInsert l k v) : q ∈ l ∨ q = (k, v) := by
  unfold dictInsert at hq
  by_cases h : l.any (fun p => p.1 = k)
  · rw [if_pos h] at hq
    rcases List.mem_map.mp hq with ⟨p, hp, hpe⟩
    by_cases hpk : p.1 = k
    · right
      rw [← hpe, if_pos hpk]
    · left
      rw [← hpe, if_neg hpk]
      exact hp
  · rw [if_neg h] at hq
    rcases List.mem_append.mp hq with h1 | h1
    · exact Or.inl h1
    · exact Or.inr (by simpa using h1)

theorem dictFold_mem {α : Type} (p : CSVRow → Prop) [DecidablePred p]
    (f : CSVRow → α) :
    ∀ (rows : List CSVRow) (acc : List (String × α)) (q : String × α),
      q ∈ rows.foldl
        (fun acc r => if p r then dictInsert acc (rowKey r) (f r) else acc) acc →
      q ∈ acc ∨ ∃ r ∈ rows, p r ∧ q = (rowKey r, f r) := by
  intro rows
  induction rows with
  | nil =>
    intro acc q hq
    exact Or.inl (by simpa using hq)
  | cons r rest ih =>
    intro acc q hq
    rw [List.foldl_cons] at hq
    rcases ih _ q hq with hacc | ⟨s, hs, hps, hqe⟩
    · by_cases hp : p r
      · rw [if_pos hp] at hacc
        rcases mem_dictInsert _ _ _ _ hacc with h1 | h1
        · exact Or.inl h1
        · exact Or.inr ⟨r, List.mem_cons_self r rest, hp, h1⟩
      · rw [if_neg hp] at hacc
        exact Or.inl hacc
    · exact Or.inr ⟨s, List.mem_cons_of_mem r hs, hps, hqe⟩

theorem dictFold_fresh {α : Type} (p : CSVRow → Prop) [DecidablePred p]
    (f : CSVRow → α) :
    ∀ (rows : List CSVRow) (acc : List (String × α)),
      (∀ r ∈ rows, ∀ q ∈ acc, q.1 ≠ rowKey r) →
      List.Pairwise (fun a b => rowKey a ≠ rowKey b) rows →
      rows.foldl
          (fun acc r => if p r then dictInsert acc (rowKey r) (f r) else acc)
          acc =
        acc ++ rows.filterMap
          (fun r => if p r then some (rowKey r, f r) else none) := by
  intro rows
  induction rows with
  | nil => intro acc _ _; simp
  | cons r rest ih =>
    intro acc hfresh hpw
    rcases List.pairwise_cons.mp hpw with ⟨hhead, htail⟩
    rw [List.foldl_cons]
    by_cases hp : p r
    · rw [if_pos hp]
      have hnone : ¬ acc.any (fun q => q.1 = rowKey r) = true := by
        simp only [List.any_eq_true, decide_eq_true_eq]
        rintro ⟨q, hq, hqk⟩
        exact hfresh r (List.mem_cons_self r rest) q hq hqk
      have hins : dictInsert acc (rowKey r) (f r) = acc ++ [(rowKey r, f r)] := by
        unfold dictInsert
        rw [if_neg hnone]
      rw [hins, ih (acc ++ [(rowKey r, f r)]) ?_ htail]
      · simp [List.filterMap_cons, hp, List.append_assoc]
      · intro s hs q hq
        rcases List.mem_append.mp hq with h1 | h1
        · exact hfresh s (List.mem_cons_of_mem r hs) q h1
        · have : q = (rowKey r, f r) := by simpa using h1
          rw [this]
          exact hhead s hs
    · rw [if_neg hp]
      rw [ih acc (fun s hs q hq => hfresh s (List.mem_cons_of_mem r hs) q hq) htail]
      simp [List.filterMap_cons, hp]

theorem insertByScoreDesc_perm (x : String × String × ℚ)
    (l : List (String × String × ℚ)) : (insertByScoreDesc x l).Perm (x :: l) := by
  induction l with
  | nil => exact List.Perm.refl _
  | cons y ys ih =>
    unfold insertByScoreDesc
    by_cases h : y.2.2 ≥ x.2.2
    · rw [if_pos h]
      exact (ih.cons y).trans (List.Perm.swap x y ys)
    · rw [if_neg h]

theorem insertByScoreDesc_sorted (x : String × String × ℚ)
    (l : List (String × String × ℚ))
    (hl : List.Pairwise (fun a b => b.2.2 ≤ a.2.2) l) :
    List.Pairwise (fun a b => b.2.2 ≤ a.2.2) (insertByScoreDesc x l) := by
  induction l with
  | nil => simp [insertByScoreDesc]
  | cons y ys ih =>
    rcases List.pairwise_cons.mp hl with ⟨hy, hys⟩
    unfold insertByScoreDesc
    by_cases h : y.2.2 ≥ x.2.2
    · rw [if_pos h]
      refine List.pairwise_cons.mpr ⟨?_, ih hys⟩
      intro z hz
      have hz' : z ∈ x :: ys := (insertByScoreDesc_perm x ys).subset hz
      rcases List.mem_cons.mp hz' with rfl | hz''
      · exact h
      · exact hy z hz''
    · rw [if_neg h]
      push_neg at h
      refine List.pairwise_cons.mpr ⟨?_, hl⟩
      intro z hz
      rcases List.mem_cons.mp hz with rfl | hz'
      · exact le_of_lt h
      · exact le_trans (hy z hz') (le_of_lt h)

theorem pySortByScoreDesc_perm (l : List (String × String × ℚ)) :
    (pySortByScoreDesc l).Perm l := by
  suffices h : ∀ (l acc : List (String × String × ℚ)),
      (l.foldl (fun acc x => insertByScoreDesc x acc) acc).Perm (acc ++ l) by
    simpa using h l []
  intro l
  induction l with
  | nil => intro acc; simp
  | cons x rest ih =>
    intro acc
    rw [List.foldl_cons]
    refine (ih (insertByScoreDesc x acc)).trans ?_
    refine (List.Perm.append_right rest (insertByScoreDesc_perm x acc)).trans ?_
    exact (List.perm_middle).symm

theorem pySortByScoreDesc_sorted (l : List (String × String × ℚ)) :
    List.Pairwise (fun a b => b.2.2 ≤ a.2.2) (pySortByScoreDesc l) := by
  suffices h : ∀ (l acc : List (String × String × ℚ)),
      List.Pairwise (fun a b => b.2.2 ≤ a.2.2) acc →
      List.Pairwise (fun a b => b.2.2 ≤ a.2.2)
        (l.foldl (fun acc x => insertByScoreDesc x acc) acc) by
    exact h l [] (by simp)
  intro l
  induction l with
  | nil => intro acc hacc; simpa using hacc
  | cons x rest ih =>
    intro acc hacc
    rw [List.foldl_cons]
    exact ih _ (insertByScoreDesc_sorted x acc hacc)

theorem insertByScoreDesc_filter (q : ℚ) (x : String × String × ℚ) :
    ∀ (l : List (String × String × ℚ)),
      List.Pairwise (fun a b => b.2.2 ≤ a.2.2) l →
      (insertByScoreDesc x l).filter (fun p => p.2.2 = q) =
        if x.2.2 = q then (l.filter (fun p => p.2.2 = q)) ++ [x]
        else l.filter (fun p => p.2.2 = q) := by
  intro l
  induction l with
  | nil =>
    intro _
    by_cases hx : x.2.2 = q <;> simp [insertByScoreDesc, List.filter_cons, hx]
  | cons y ys ih =>
    intro hl
    rcases List.pairwise_cons.mp hl with ⟨hy, hys⟩
    unfold insertByScoreDesc
    by_cases h : y.2.2 ≥ x.2.2
    · rw [if_pos h]
      by_cases hyq : y.2.2 = q <;> by_cases hxq : x.2.2 = q <;>
        simp [List.filter_cons, hyq, hxq, ih hys]
    · rw [if_neg h]
      push_neg at h
      by_cases hxq : x.2.2 = q
      · have hnil : (y :: ys).filter (fun p => p.2.2 = q) = [] := by
          rw [List.filter_eq_nil_iff]
          intro a ha
          simp only [decide_eq_true_eq]
          rcases List.mem_cons.mp ha with rfl | ha'
          · rw [← hxq]
            exact ne_of_lt h
          · have := hy a ha'
            rw [← hxq]
            exact ne_of_lt (lt_of_le_of_lt this h)
        simp [List.filter_cons, hxq, hnil]
      · simp [List.filter_cons, hxq]

theorem pySortByScoreDesc_filter (q : ℚ) (l : List (String × String × ℚ)) :
    (pySortByScoreDesc l).filter (fun p => p.2.2 = q) =
      l.filter (fun p => p.2.2 = q) := by
  suffices h : ∀ (l acc : List (String × String × ℚ)),
      List.Pairwise (fun a b => b.2.2 ≤ a.2.2) acc →
      (l.foldl (fun acc x => insertByScoreDesc x acc) acc).filter
          (fun p => p.2.2 = q) =
        acc.filter (fun p => p.2.2 = q) ++ l.filter (fun p => p.2.2 = q) by
    simpa using h l [] (by simp)
  intro l
  induction l with
  | nil => intro acc _; simp
  | cons x rest ih =>
    intro acc hacc
    rw [List.foldl_cons, ih _ (insertByScoreDesc_sorted x acc hacc),
      insertByScoreDesc_filter q x acc hacc]
    by_cases hxq : x.2.2 = q <;> simp [List.filter_cons, hxq, List.append_assoc]

theorem filter_take_front {α : Type} (p : α → Bool) (n : ℕ) (l : List α) :
    (l.take n).filter p <+: l.filter p :=
  ⟨(l.drop n).filter p, by rw [← List.filter_append, List.take_append_drop]⟩

/-- C7 counterexample: the enhanced ranker does not order its returned
candidates by non-increasing relevance score.  For the description
`alpha beta` with terms `rowA` (overlap 1) and `rowB` (overlap 2), it
returns them in vocabulary order `[rowA, rowB]`, i.e. with strictly
INCREASING scores, because it takes the first `top_k` relevant entries
without sorting. -/
theorem relevance_ranking_counterexample :
    searchRelevantTerms [rowA, rowB] "alpha beta" 2 =
      [("idA", "alpha"), ("idB", "alpha beta")] ∧
    entryMaxOverlap (wordSet "alpha beta") rowA = 1 ∧
    entryMaxOverlap (wordSet "alpha beta") rowB = 2 := by
  decide

/-- C7 amended (relevance ranking): both rankers return at most `top_k`
candidates and return only entries with positive keyword overlap.  The
ENHANCED ranker (`enhanced_edam_matcher.py`) performs no score sort: it
returns the first `top_k` positive-overlap entries in original
vocabulary order.  The LEGACY ranker (`edam_ontology_matcher.py`) does
satisfy the ordering clause: it returns the candidates sorted by
non-increasing Jaccard score, with ties kept in original vocabulary
order (its output restricted to any fixed score is a prefix of the
insertion-ordered relevant list restricted to that score). -/
theorem relevance_ranking_amended :
    (∀ (rows : List CSVRow) (d : String) (k : ℕ),
      (searchRelevantTerms rows d k).length ≤ k) ∧
    (∀ (rows : List CSVRow) (d : String) (k : ℕ) (p : String × String),
      p ∈ searchRelevantTerms rows d k →
      ∃ r ∈ rows, entryMaxOverlap (wordSet d) r > 0 ∧
        p = (rowKey r, enhancedFormat r)) ∧
    (∀ (rows : List CSVRow) (d : String) (k : ℕ),
      (rows.map rowKey).Nodup →
      searchRelevantTerms rows d k =
        (rows.filterMap (fun r =>
          if entryMaxOverlap (wordSet d) r > 0 then
            some (rowKey r, enhancedFormat r)
          else none)).take k) ∧
    (∀ (rows : List CSVRow) (d : String) (k : ℕ),
      (searchRelevantTermsLegacy rows d k).length ≤ k) ∧
    (∀ (rows : List CSVRow) (d : String) (k : ℕ) (p : String × String × ℚ),
      p ∈ searchRelevantTermsLegacyScored rows d k →
      ∃ r ∈ rows, legacyOverlap (wordSet d) r > 0 ∧
        p = (rowKey r, legacyFormat r, legacyScore (wordSet d) r)) ∧
    (∀ (rows : List CSVRow) (d : String) (k : ℕ),
      List.Pairwise (fun a b => b.2.2 ≤ a.2.2)
        (searchRelevantTermsLegacyScored rows d k)) ∧
    (∀ (rows : List CSVRow) (d : String) (k : ℕ) (q : ℚ),
      (searchRelevantTermsLegacyScored rows d k).filter (fun p => p.2.2 = q) <+:
        (legacyRelevant rows d).filter (fun p => p.2.2 = q)) := by
  refine ⟨?_, ?_, ?_, ?_, ?_, ?_, ?_⟩
  · intro rows d k
    simp only [searchRelevantTerms]
    exact List.length_take_le _ _
  · intro rows d k p hp
    simp only [searchRelevantTerms] at hp
    have hp2 := List.mem_of_mem_take hp
    rcases dictFold_mem (fun r => entryMaxOverlap (wordSet d) r > 0)
        enhancedFormat rows [] p hp2 with h | ⟨r, hr, hpr, hpe⟩
    · simp at h
    · exact ⟨r, hr, hpr, hpe⟩
  · intro rows d k hnodup
    have hpw : List.Pairwise (fun a b => rowKey a ≠ rowKey b) rows :=
      List.pairwise_map.mp hnodup
    have hf := dictFold_fresh (fun r => entryMaxOverlap (wordSet d) r > 0)
      enhancedFormat rows [] (by simp) hpw
    simp only [searchRelevantTerms]
    rw [hf]
    simp
  · intro rows d k
    simp only [searchRelevantTermsLegacy, searchRelevantTermsLegacyScored,
      List.length_map]
    exact List.length_take_le _ _
  · intro rows d k p hp
    simp only [searchRelevantTermsLegacyScored] at hp
    have h1 := List.mem_of_mem_take hp
    have h2 : p ∈ legacyRelevant rows d := (pySortByScoreDesc_perm _).subset h1
    simp only [legacyRelevant] at h2
    rcases dictFold_mem (fun r => legacyOverlap (wordSet d) r > 0)
        (fun r => (legacyFormat r, legacyScore (wordSet d) r)) rows [] p h2 with
      h | ⟨r, hr, hpr, hpe⟩
    · simp at h
    · exact ⟨r, hr, hpr, hpe⟩
  · intro rows d k
    simp only [searchRelevantTermsLegacyScored]
    exact List.Pairwise.sublist (List.take_sublist _ _) (pySortByScoreDesc_sorted _)
  · intro rows d k q
    simp only [searchRelevantTermsLegacyScored]
    have h := filter_take_front (fun p => decide (p.2.2 = q)) k
      (pySortByScoreDesc (legacyRelevant rows d))
    rw [pySortByScoreDesc_filter q] at h
    exact h

theorem relevance_ranking_amended_witness :
    searchRelevantTerms [rowA, rowB] "alpha beta" 2 =
      ([rowA, rowB].filterMap (fun r =>
        if entryMaxOverlap (wordSet "alpha beta") r > 0 then
          some (rowKey r, enhancedFormat r)
        else none)).take 2 :=
  relevance_ranking_amended.2.2.1 [rowA, rowB] "alpha beta" 2 (by decide)

/-- The across-chunk loop is exactly the aggregation step folded over
the matches produced by successive chunks: `aggregateMatches` is the
loop's aggregation in isolation. -/
theorem matchChunksLoop_eq_aggregate (v : EDAMValidator)
    (oracle : ℕ → ℕ → OracleResult) :
    ∀ (chunks : List (List String)) (idx : ℕ) (best : Option OntologyMatch)
      (bestConf : ℚ),
      matchChunksLoop v oracle chunks idx best bestConf =
        ((chunkMatches v oracle chunks idx).foldl aggStep (best, bestConf)).1 := by
  intro chunks
  induction chunks with
  | nil => intro idx best bestConf; rfl
  | cons c rest ih =>
    intro idx best bestConf
    cases h : (runChunkAttempts v (oracle idx) 3 0).1 with
    | none =>
      simp only [matchChunksLoop, chunkMatches, h]
      exact ih (idx + 1) best bestConf
    | some m =>
      simp only [matchChunksLoop, chunkMatches, h, List.foldl_cons]
      by_cases hc : m.confidence_score > bestConf
      · rw [if_pos hc]
        have hstep : aggStep (best, bestConf) m = (some m, m.confidence_score) := by
          simp [aggStep, hc]
        rw [hstep]
        exact ih (idx + 1) (some m) m.confidence_score
      · rw [if_neg hc]
        have hstep : aggStep (best, bestConf) m = (best, bestConf) := by
          simp [aggStep, hc]
        rw [hstep]
        exact ih (idx + 1) best bestConf

/-- The entry point of the loop aggregates exactly `aggregateMatches`
over the chunk-produced matches. -/
theorem matchChunksLoop_aggregates (v : EDAMValidator)
    (oracle : ℕ → ℕ → OracleResult) (chunks : List (List String)) :
    matchChunksLoop v oracle chunks 0 none (-1) =
      (aggregateMatches (chunkMatches v oracle chunks 0)).1 :=
  matchChunksLoop_eq_aggregate v oracle chunks 0 none (-1)

end EDAM
